import Mathlib

set_option maxHeartbeats 1000000

namespace HorizonSummaries

/-- Word character for the regex `\b` metacharacter, Python's `\w`
restricted to the ASCII fragment: `[A-Za-z0-9_]`. -/
def isWordChar (c : Char) : Bool :=
  ('a' ≤ c && c ≤ 'z') || ('A' ≤ c && c ≤ 'Z') || ('0' ≤ c && c ≤ '9') || c = '_'

/-- Truth of `\b` between two adjacent positions: exactly one of the two
neighbouring characters is a word character (a missing neighbour, at the
start or end of the text, counts as non-word). -/
def wordBoundary (prev next : Option Char) : Bool :=
  (prev.elim false isWordChar) != (next.elim false isWordChar)

/-- ASCII lower-casing; the fragment of `re.IGNORECASE` case folding that
this repository's data exercises. -/
def asciiLower (c : Char) : Char :=
  if 'A' ≤ c && c ≤ 'Z' then Char.ofNat (c.toNat + 32) else c

/-- Case-insensitive match of a literal pattern against the head of a text;
returns the consumed text characters and the remaining text. -/
def ciMatch : List Char → List Char → Option (List Char × List Char)
  | [], rest => some ([], rest)
  | _ :: _, [] => none
  | p :: ps, t :: ts =>
    if asciiLower p = asciiLower t then
      (ciMatch ps ts).map (fun pr => (t :: pr.1, pr.2))
    else none

/-- Attempt of the compiled pattern `\b`·literal·`\b` (case-insensitive) at
one text position: leading boundary between `prev` and `t`, literal match,
trailing boundary after the consumed characters. -/
def tryRule (p : Char) (ps : List Char) (prev : Option Char) (t : Char)
    (ts : List Char) : Option (List Char × List Char) :=
  if wordBoundary prev (some t) then
    match ciMatch (p :: ps) (t :: ts) with
    | some pr => if wordBoundary pr.1.getLast? pr.2.head? then some pr else none
    | none => none
  else none

/-- Fuel-indexed left-to-right scan of Python
`re.sub(r'\b'+re.escape(lit)+r'\b', rep, text, flags=re.IGNORECASE)` for a
non-empty literal `p :: ps` (`term_correction.py`, lines 94-96): at each
position try a boundary-checked case-insensitive match; on success emit the
replacement and resume after the match, otherwise emit the current character.
`prev` is the character preceding the current position. Each step consumes at
least one text character, so fuel `text.length` makes the fuel-exhausted
branch unreachable. -/
def subScanF (p : Char) (ps rep : List Char) : Nat → Option Char → List Char → List Char
  | _, _, [] => []
  | 0, _, l => l
  | fuel + 1, prev, t :: ts =>
    match tryRule p ps prev t ts with
    | some pr => rep ++ subScanF p ps rep fuel pr.1.getLast? pr.2
    | none => t :: subScanF p ps rep fuel (some t) ts

/-- Python `re.sub(r'\b' + re.escape(incorrect) + r'\b', correct, text,
flags=re.IGNORECASE)` on the ASCII fragment, for replacement strings free of
backslash escapes (true of every replacement this repository applies). An
empty literal is never passed by the applier; it is mapped to the identity. -/
def pyReSubWordCI (incorrect correct text : String) : String :=
  match incorrect.toList with
  | [] => text
  | p :: ps => (subScanF p ps correct.toList text.toList.length none text.toList).asString

/-- Embedding of `_apply_corrections` (`term_correction.py`, lines 75-98):
fold the ordered correction mapping over the transcript in the mapping's own
iteration order, skipping pairs whose key or value is the empty string. -/
def _apply_corrections (transcript : String) (corrections : List (String × String)) : String :=
  corrections.foldl
    (fun corrected kv =>
      if kv.1 = "" || kv.2 = "" then corrected
      else pyReSubWordCI kv.1 kv.2 corrected)
    transcript

/-- Row of the `term_corrections` table (`term_db.py`, lines 44-56). The
autoincrement `id` is abstracted away and the wall-clock timestamps are
modelled as a `Nat` supplied with each write. -/
structure Record where
  incorrect : String
  correct : String
  confidence : ℚ
  reasoning : Option String
  ctype : String
  src : String
  createdAt : Nat
  updatedAt : Nat
deriving Repr, DecidableEq

/-- Keys (`incorrect_term` column) of a table state. -/
def dbKeys (db : List Record) : List String := db.map Record.incorrect

/-- Filter of the SQL clause `WHERE confidence >= ?` plus the optional
`AND correction_type IN (...)` (`term_db.py`, lines 227-241 and 282-297);
the `IN` filter is appended only when `correction_types` is truthy, i.e.
a non-empty list. -/
def rowPred (minConfidence : ℚ) (correction_types : Option (List String)) (r : Record) : Bool :=
  decide (minConfidence ≤ r.confidence) &&
    (match correction_types with
     | none => true
     | some ts => if ts.isEmpty then true else ts.contains r.ctype)

/-- Ordering behind `ORDER BY length(incorrect_term) DESC`. -/
def lenDescRel (a b : Record) : Prop := b.incorrect.length ≤ a.incorrect.length

instance : DecidableRel lenDescRel := fun _ _ => Nat.decLe _ _

instance : IsTotal Record lenDescRel :=
  ⟨fun a b => Nat.le_total b.incorrect.length a.incorrect.length⟩

instance : IsTrans Record lenDescRel := ⟨fun _ _ _ hab hbc => le_trans hbc hab⟩

/-- Python-dict assignment `m[k] = v`: overwrite the value at the existing
position of the key, else append at the end. -/
def pyDictInsert {α : Type} (m : List (String × α)) (k : String) (v : α) : List (String × α) :=
  if m.any fun p => p.1 == k then m.map (fun p => if p.1 == k then (k, v) else p)
  else m ++ [(k, v)]

/-- Building a Python dict from an ordered list of key-value pairs (the
`for row in rows: corrections[...] = ...` loops in `term_db.py`). -/
def pyDictOfList {α : Type} (l : List (String × α)) : List (String × α) :=
  l.foldl (fun m p => pyDictInsert m p.1 p.2) []

/-- Embedding of `get_all_term_corrections` (`term_db.py`, lines 203-255).
`conn` is `none` when the connection or the query fails, in which case the
empty mapping is returned; otherwise the rows are filtered by confidence and
optional type list, ordered by descending length of `incorrect_term`
(a stable insertion sort models the SQL `ORDER BY`) and loaded into a dict. -/
def get_all_term_corrections (conn : Option (List Record)) (minConfidence : ℚ)
    (correction_types : Option (List String)) : List (String × String) :=
  match conn with
  | none => []
  | some rows =>
    pyDictOfList ((List.insertionSort lenDescRel
      (rows.filter (rowPred minConfidence correction_types))).map
        fun r => (r.incorrect, r.correct))

/-- Embedding of `get_term_corrections_with_metadata` (`term_db.py`, lines
258-318): same filter and ordering, but each value carries the full row (the
returned dict's `term` entry is the row's `correct_term`). -/
def get_term_corrections_with_metadata (conn : Option (List Record)) (minConfidence : ℚ)
    (correction_types : Option (List String)) : List (String × Record) :=
  match conn with
  | none => []
  | some rows =>
    pyDictOfList ((List.insertionSort lenDescRel
      (rows.filter (rowPred minConfidence correction_types))).map
        fun r => (r.incorrect, r))

/-- Embedding of the SQL statement `INSERT ... ON CONFLICT(incorrect_term)
DO UPDATE SET ...` shared by both insert paths (`term_db.py`, lines 104-117
and 182-195): on conflict every listed field is replaced and `updated_at`
refreshed while `created_at` and the row's position are kept; otherwise a
fresh row is appended. -/
def upsertRow (now : Nat) (db : List Record) (incorrect correct : String)
    (confidence : ℚ) (reasoning : Option String) (ctype source : String) : List Record :=
  if db.any fun r => r.incorrect == incorrect then
    db.map fun r =>
      if r.incorrect == incorrect then
        { r with correct := correct, confidence := confidence, reasoning := reasoning,
                 ctype := ctype, src := source, updatedAt := now }
      else r
  else db ++ [⟨incorrect, correct, confidence, reasoning, ctype, source, now, now⟩]

/-- Embedding of `add_term_correction` (`term_db.py`, lines 73-123): falsy
(empty) keys or values are skipped, everything else is upserted. -/
def add_term_correction (db : List Record) (incorrect correct : String)
    (confidence : ℚ) (reasoning : Option String) (ctype source : String)
    (now : Nat) : List Record :=
  if incorrect = "" || correct = "" then db
  else upsertRow now db incorrect correct confidence reasoning ctype source

/-- Value shapes accepted by `add_multiple_term_corrections` (`term_db.py`,
lines 150-165): a plain string, a detailed dict, or anything else (logged
and skipped). -/
inductive CorrValue where
  | simple (correct : String)
  | detailed (term : String) (confidence : Option ℚ) (reasoning : Option String)
      (ctype : Option String)
  | invalid
deriving Repr, DecidableEq

/-- A tuple appended to `data_to_insert` in `add_multiple_term_corrections`. -/
structure PendingRow where
  incorrect : String
  correct : String
  confidence : ℚ
  reasoning : Option String
  ctype : String
deriving Repr, DecidableEq

/-- Row extraction step of `add_multiple_term_corrections` (`term_db.py`,
lines 145-172): empty keys, invalid value shapes and empty correct terms are
dropped; a plain-string value means confidence 1.0, no reasoning, type
`term`; a detailed value fills the same defaults for missing fields. -/
def corrRow (kv : String × CorrValue) : Option PendingRow :=
  if kv.1 = "" then none
  else
    match kv.2 with
    | .simple s => if s = "" then none else some ⟨kv.1, s, 1, none, "term"⟩
    | .detailed t conf rs ct =>
        if t = "" then none else some ⟨kv.1, t, conf.getD 1, rs, ct.getD "term"⟩
    | .invalid => none

/-- Embedding of `add_multiple_term_corrections` (`term_db.py`, lines
126-200): extract the valid rows, then run the shared upsert statement over
them in mapping order (the `executemany`). -/
def add_multiple_term_corrections (db : List Record) (corrections : List (String × CorrValue))
    (source : String) (now : Nat) : List Record :=
  (corrections.filterMap corrRow).foldl
    (fun d row => upsertRow now d row.incorrect row.correct row.confidence row.reasoning
      row.ctype source) db

/-- Structured finding as produced by the validated analyzer output and
consumed by the orchestrator (`term_correction.py` reads `data['term']`,
`data.get('confidence', 0)` at lines 157-159): the mandatory corrected term
plus optional metadata. -/
structure Finding where
  term : String
  confidence : Option ℚ
  reasoning : Option String
  ctype : Option String
deriving Repr, DecidableEq

/-- Outcome of the awaited `analyze_transcript_for_term_errors` call as the
orchestrator observes it: an exception, or a returned value (`None` or a
findings mapping). -/
inductive AnalyzerOutcome where
  | raise
  | ret (findings : Option (List (String × Finding)))
deriving Repr, DecidableEq

/-- External interactions the orchestrator can perform, in order; used to
state that the empty transcript performs none. -/
inductive CallEv where
  | queryHighStore
  | analyzerCall
  | storeWrite
  | queryMediumStore
deriving Repr, DecidableEq

/-- Inputs of one orchestrator run that come from outside the function: the
reference lists (already loaded; both loaders degrade to `[]` on any error),
the current table state, the availability of each of the three store
connections, the analyzer outcome and the write timestamp. -/
structure RunParams where
  known_terms : List String
  known_names : List String
  db : List Record
  connHigh : Bool
  analyzer : AnalyzerOutcome
  connWrite : Bool
  connMedium : Bool
  now : Nat
deriving Repr, DecidableEq

/-- Observables of one orchestrator run: the staged texts, the mappings that
stages A and D applied, the medium-confidence metadata query result, the
final table state and the calls performed. -/
structure RunResult where
  final : String
  afterA : String
  afterC : String
  hcc : List (String × String)
  medRows : List (String × Record)
  medium : List (String × String)
  db : List Record
  calls : List CallEv
deriving Repr, DecidableEq

/-- Stage A of `correct_jupiter_terms` (`term_correction.py`, lines
127-136): query the store for high-confidence corrections (empty mapping on
store failure) and apply them to the raw transcript when non-empty. Returns
the queried mapping and the partially corrected text. -/
def stageA (highT : ℚ) (p : RunParams) (transcript : String) :
    List (String × String) × String :=
  let hcc := get_all_term_corrections (if p.connHigh then some p.db else none) highT none
  (hcc, if hcc.isEmpty then transcript else _apply_corrections transcript hcc)

/-- Stages B and C of `correct_jupiter_terms` (`term_correction.py`, lines
138-167): skipped entirely when both reference lists are falsy; otherwise
the analyzer outcome is observed under `try`/`except Exception` — a raise is
caught, keeping the stage-A text and table state. A non-empty findings
mapping is written to the store in full (when the write connection holds)
and its high-confidence part is applied to the stage-A text. Returns the
stage-C text, the table state, and the calls performed. -/
def stageBC (highT : ℚ) (p : RunParams) (afterA : String) :
    String × List Record × List CallEv :=
  if p.known_terms.isEmpty && p.known_names.isEmpty then (afterA, p.db, [])
  else
    match p.analyzer with
    | .raise => (afterA, p.db, [.analyzerCall])
    | .ret none => (afterA, p.db, [.analyzerCall])
    | .ret (some F) =>
      if F.isEmpty then (afterA, p.db, [.analyzerCall])
      else
        let db1 :=
          if p.connWrite then
            add_multiple_term_corrections p.db
              (F.map fun kf =>
                (kf.1, CorrValue.detailed kf.2.term kf.2.confidence kf.2.reasoning kf.2.ctype))
              "llm_identified" p.now
          else p.db
        let hcNew := (F.filter fun kf => decide (highT ≤ kf.2.confidence.getD 0)).map
          fun kf => (kf.1, kf.2.term)
        let afterC := if hcNew.isEmpty then afterA else _apply_corrections afterA hcNew
        (afterC, db1, [.analyzerCall, .storeWrite])

/-- Stages A-D of `correct_jupiter_terms` (`term_correction.py`, lines
121-194) for a non-empty transcript, given the two threshold values read
from configuration. Stage D (lines 169-191) queries the metadata variant
against the post-write table, keeps entries in `[mediumT, highT)` whose key
is not in the stage-A mapping, and applies them to the stage-C text. -/
def correct_jupiter_termsRun (highT mediumT : ℚ) (p : RunParams) (transcript : String) :
    RunResult :=
  let a := stageA highT p transcript
  let bc := stageBC highT p a.2
  let medRows := get_term_corrections_with_metadata
    (if p.connMedium then some bc.2.1 else none) mediumT none
  let medium := (medRows.filter fun kd =>
      decide (mediumT ≤ kd.2.confidence) && decide (kd.2.confidence < highT) &&
        !(a.1.any fun q => q.1 == kd.1)).map fun kd => (kd.1, kd.2.correct)
  let final := if medium.isEmpty then bc.1 else _apply_corrections bc.1 medium
  { final := final, afterA := a.2, afterC := bc.1, hcc := a.1, medRows := medRows,
    medium := medium, db := bc.2.1,
    calls := CallEv.queryHighStore :: bc.2.2 ++ [CallEv.queryMediumStore] }

/-- Attributes of the `Config` class that `correct_jupiter_terms` reads for
its thresholds; `none` models a missing class attribute, whose access raises
`AttributeError`. -/
structure Config where
  HIGH_CONFIDENCE_THRESHOLD : Option ℚ
  MEDIUM_CONFIDENCE_THRESHOLD : Option ℚ
deriving Repr, DecidableEq

/-- The `Config` class as defined in the repository's `src/config.py`: it
defines neither `HIGH_CONFIDENCE_THRESHOLD` nor
`MEDIUM_CONFIDENCE_THRESHOLD` (its only confidence setting is the nowhere
referenced `MIN_TERM_CORRECTION_CONFIDENCE`), so both attribute reads in
`term_correction.py` (lines 128 and 170) raise `AttributeError`. -/
def configRepo : Config :=
  { HIGH_CONFIDENCE_THRESHOLD := none, MEDIUM_CONFIDENCE_THRESHOLD := none }

/-- Python exceptions distinguished by this embedding. -/
inductive PyErr where
  | attributeError
  | typeError
  | keyError
deriving Repr, DecidableEq

/-- Embedding of the orchestrator `correct_jupiter_terms`
(`term_correction.py`, lines 101-194). A falsy (empty) transcript returns
`""` immediately, before any store or analyzer interaction (lines 118-119).
Otherwise the two threshold attributes are read from `Config`; in the source
the `MEDIUM_CONFIDENCE_THRESHOLD` read happens only after stages A-C (line
170), so a failure of that read is modelled with the stages' effects
discarded from the result, matching that the call raises. -/
def correct_jupiter_terms (cfg : Config) (p : RunParams) (transcript : String) :
    Except PyErr RunResult :=
  if transcript = "" then
    .ok { final := "", afterA := "", afterC := "", hcc := [], medRows := [], medium := [],
          db := p.db, calls := [] }
  else
    match cfg.HIGH_CONFIDENCE_THRESHOLD with
    | none => .error .attributeError
    | some highT =>
      match cfg.MEDIUM_CONFIDENCE_THRESHOLD with
      | none => .error .attributeError
      | some mediumT => .ok (correct_jupiter_termsRun highT mediumT p transcript)

/-- Python values as they occur in the reference-data and analyzer paths. -/
inductive PyVal where
  | str (s : String)
  | num (q : ℚ)
  | bool (b : Bool)
  | none
  | list (xs : List PyVal)
  | dict (kvs : List (String × PyVal))

mutual

/-- Python `==` on the modelled values: structural comparison (the numeric
cross-type equalities of Python, such as `1 == True`, do not occur in this
code's data and are modelled as unequal). -/
def pyBeq : PyVal → PyVal → Bool
  | .str a, .str b => a == b
  | .num a, .num b => a == b
  | .bool a, .bool b => a == b
  | .none, .none => true
  | .list xs, .list ys => pyBeqList xs ys
  | .dict xs, .dict ys => pyBeqDict xs ys
  | _, _ => false

/-- Elementwise Python `==` on lists. -/
def pyBeqList : List PyVal → List PyVal → Bool
  | [], [] => true
  | x :: xs, y :: ys => pyBeq x y && pyBeqList xs ys
  | _, _ => false

/-- Entrywise Python `==` on dicts (order-sensitive; the dicts this code
compares are never reordered). -/
def pyBeqDict : List (String × PyVal) → List (String × PyVal) → Bool
  | [], [] => true
  | x :: xs, y :: ys => x.1 == y.1 && pyBeq x.2 y.2 && pyBeqDict xs ys
  | _, _ => false

end

/-- Bool substring test on char lists (Python `key in s` for strings). -/
def strContains (key : List Char) : List Char → Bool
  | [] => key.isEmpty
  | c :: cs => key.isPrefixOf (c :: cs) || strContains key cs

/-- Python truthiness of the modelled values. -/
def pyTruthy : PyVal → Bool
  | .str s => !(s == "")
  | .num q => !(q == 0)
  | .bool b => b
  | .none => false
  | .list xs => !xs.isEmpty
  | .dict kvs => !kvs.isEmpty

/-- Python's `in` operator applied as `"key" in v` for the value shapes this
code meets: key membership for dicts, element equality for lists, substring
test for strings; the remaining shapes are not containers and raise
`TypeError`. -/
def pyContainsKey (v : PyVal) (key : String) : Except PyErr Bool :=
  match v with
  | .dict kvs => .ok (kvs.any fun p => p.1 == key)
  | .list xs => .ok (xs.any fun x => pyBeq x (PyVal.str key))
  | .str s => .ok (strContains key.toList s.toList)
  | _ => .error .typeError

/-- Python subscript `v["key"]`: dict lookup (`KeyError` when the key is
absent); subscripting a list or a string with a string raises `TypeError`. -/
def pyGetItem (v : PyVal) (key : String) : Except PyErr PyVal :=
  match v with
  | .dict kvs =>
    match kvs.find? fun p => p.1 == key with
    | some p => .ok p.2
    | Option.none => .error .keyError
  | _ => .error .typeError

/-- Python iteration `for x in v`: lists yield their elements, strings yield
one-character strings, dicts yield their keys; other values raise
`TypeError`. -/
def pyIter (v : PyVal) : Except PyErr (List PyVal) :=
  match v with
  | .list xs => .ok xs
  | .str s => .ok (s.toList.map fun c => PyVal.str (String.mk [c]))
  | .dict kvs => .ok (kvs.map fun p => PyVal.str p.1)
  | _ => .error .typeError

/-- Loop body shared by `extract_terms_list` and `extract_people_list`
(`reference_data.py`, lines 67-76 and 89-98) for one element of the outer
list: a plain string is taken as is; a dict with the main key (`term` /
`name`) contributes its value plus, when a truthy alias entry (`acronyms` /
`nicknames`) is present, that entry's truthy elements (iterating a
non-iterable alias value raises `TypeError`); anything else contributes
nothing. -/
def flatObjItems (mainKey aliasKey : String) (obj : PyVal) : Except PyErr (List PyVal) :=
  match obj with
  | .str s => .ok [.str s]
  | .dict kvs =>
    match kvs.find? fun p => p.1 == mainKey with
    | Option.none => .ok []
    | some pt =>
      match kvs.find? fun p => p.1 == aliasKey with
      | Option.none => .ok [pt.2]
      | some pa =>
        if pyTruthy pa.2 then do
          let items ← pyIter pa.2
          .ok (pt.2 :: items.filter pyTruthy)
        else .ok [pt.2]
  | _ => .ok []

/-- Shared shape of `extract_terms_list` and `extract_people_list`
(`reference_data.py`, lines 59-78 and 81-100): evaluate
`outerKey in data and data[outerKey]` with Python semantics (short-circuit;
membership on a list tests elements, and a subsequent string subscript
raises `TypeError`), then collect the main values and aliases and keep the
truthy ones. -/
def extractFlatList (outerKey mainKey aliasKey : String) (data : PyVal) :
    Except PyErr (List PyVal) := do
  let c ← pyContainsKey data outerKey
  if c then
    let v ← pyGetItem data outerKey
    if pyTruthy v then
      let objs ← pyIter v
      let itemLists ← objs.mapM (flatObjItems mainKey aliasKey)
      pure (itemLists.flatten.filter pyTruthy)
    else pure []
  else pure []

/-- Embedding of `extract_terms_list` (`reference_data.py`, lines 59-78). -/
def extract_terms_list (term_data : PyVal) : Except PyErr (List PyVal) :=
  extractFlatList "terms" "term" "acronyms" term_data

/-- Embedding of `extract_people_list` (`reference_data.py`, lines
81-100). -/
def extract_people_list (name_data : PyVal) : Except PyErr (List PyVal) :=
  extractFlatList "people" "name" "nicknames" name_data

/-- The flat string list that `correct_jupiter_terms` passes to the analyzer
as its catalog arguments (`term_correction.py`, lines 143-147, passing the
results of `_load_known_terms` / `_load_known_names`). -/
def flatArg (xs : List String) : PyVal := PyVal.list (xs.map PyVal.str)

/-- The `confidence`-defaulting step of the validation loop
(`term_analyzer.py`, lines 180-181): a dict without a `confidence` key gets
`correction_data['confidence'] = 0.7` appended. -/
def confFill (kvs : List (String × PyVal)) : List (String × PyVal) :=
  if (kvs.find? fun p => p.1 == "confidence").isSome then kvs
  else kvs ++ [("confidence", PyVal.num (7 / 10))]

/-- The `correction_type`-inference step of the validation loop
(`term_analyzer.py`, lines 183-188): a dict without a `correction_type` key
is tagged `person` when `known_people` is truthy and the corrected value
`tv` compares equal to one of its entries, else `term`. -/
def ctypeFill (known_people : List PyVal) (tv : PyVal)
    (kvs1 : List (String × PyVal)) : List (String × PyVal) :=
  if (kvs1.find? fun p => p.1 == "correction_type").isSome then kvs1
  else if !known_people.isEmpty && (known_people.any fun x => pyBeq x tv) then
    kvs1 ++ [("correction_type", PyVal.str "person")]
  else kvs1 ++ [("correction_type", PyVal.str "term")]

/-- Validation of one parsed analyzer entry (`term_analyzer.py`, lines
168-190): non-dict values and dicts without a `term` key are discarded; a
missing `confidence` is set to 0.7; a missing `correction_type` is
inferred from the known-people list. -/
def validateEntry (known_people : List PyVal) : PyVal → Option (List (String × PyVal))
  | .dict kvs =>
    match kvs.find? fun p => p.1 == "term" with
    | Option.none => Option.none
    | some pt => some (ctypeFill known_people pt.2 (confFill kvs))
  | _ => Option.none

/-- The validation loop of `analyze_transcript_for_term_errors`
(`term_analyzer.py`, lines 166-191) over the parsed response object. -/
def validate_corrections (known_people : List PyVal) (items : List (String × PyVal)) :
    List (String × List (String × PyVal)) :=
  items.filterMap fun kv => (validateEntry known_people kv.2).map fun d => (kv.1, d)

/-- Outcome of the generative-text call plus JSON parsing inside
`analyze_transcript_for_term_errors`: either the generator raised (caught at
lines 196-198 of `term_analyzer.py`), or it returned content whose
`parse_json_from_llm` result is `none` (empty or unparsable content) or a
parsed value. -/
inductive ServiceOutcome where
  | raise
  | content (parsed : Option PyVal)

/-- Embedding of `analyze_transcript_for_term_errors` (`term_analyzer.py`,
lines 18-198). The returned flag records whether the generative-text
service was contacted. Findings keep the (default-filled) dict shape of
the parsed response. -/
def analyze_transcript_for_term_errors (transcript : String) (term_data people_data : PyVal)
    (svc : ServiceOutcome) :
    Except PyErr (Option (List (String × List (String × PyVal))) × Bool) := do
  if transcript = "" then return (Option.none, false)
  let known_terms ← extract_terms_list term_data
  let known_people ← extract_people_list people_data
  if known_terms.isEmpty && known_people.isEmpty then return (Option.none, false)
  match svc with
  | .raise => return (Option.none, true)
  | .content Option.none => return (Option.none, true)
  | .content (some v) =>
    match v with
    | .dict items => return (some (validate_corrections known_people items), true)
    | _ => return (Option.none, true)

/-- Existence of a case-insensitive occurrence of the literal pattern
anywhere in a text, word boundaries ignored. -/
def ciOccurs (pat : List Char) : List Char → Bool
  | [] => (ciMatch pat []).isSome
  | t :: ts => (ciMatch pat (t :: ts)).isSome || ciOccurs pat ts

/-- Spec-side reading of the optional `correction_type` filter: no
constraint when the argument is absent or an empty (falsy) list, else
membership of the row's type. -/
def typeCond (cts : Option (List String)) (r : Record) : Prop :=
  match cts with
  | Option.none => True
  | some ts => ts = [] ∨ r.ctype ∈ ts

theorem ciMatch_length {ps : List Char} :
    ∀ {ts c rest}, ciMatch ps ts = some (c, rest) → rest.length ≤ ts.length := by
  induction ps with
  | nil =>
    intro ts c rest h
    simp only [ciMatch, Option.some.injEq, Prod.mk.injEq] at h
    exact le_of_eq (by rw [h.2])
  | cons p ps ih =>
    intro ts c rest h
    match ts with
    | [] => simp [ciMatch] at h
    | t :: ts =>
      simp only [ciMatch] at h
      split at h
      · rcases Option.map_eq_some'.mp h with ⟨⟨a, b⟩, hab, heq⟩
        cases heq
        exact Nat.le_succ_of_le (ih hab)
      · simp at h

theorem ciMatch_cons_length {p : Char} {ps t ts c rest}
    (h : ciMatch (p :: ps) (t :: ts) = some (c, rest)) : rest.length ≤ ts.length := by
  simp only [ciMatch] at h
  split at h
  · rcases Option.map_eq_some'.mp h with ⟨⟨a, b⟩, hab, heq⟩
    cases heq
    exact ciMatch_length hab
  · simp at h

theorem tryRule_length {p ps prev t ts c rest}
    (h : tryRule p ps prev t ts = some (c, rest)) : rest.length ≤ ts.length := by
  unfold tryRule at h
  split at h
  · split at h
    · split at h
      · simp only [Option.some.injEq] at h
        subst h
        exact ciMatch_cons_length (by assumption)
      · simp at h
    · simp at h
  · simp at h

theorem pyDictOfList_go {α : Type} :
    ∀ (l acc : List (String × α)), (l.map Prod.fst).Nodup →
      (∀ p ∈ l, (acc.any fun q => q.1 == p.1) = false) →
      l.foldl (fun m p => pyDictInsert m p.1 p.2) acc = acc ++ l := by
  intro l
  induction l with
  | nil => simp
  | cons hd tl ih =>
    intro acc hnd hacc
    simp only [List.foldl_cons]
    have hne : (acc.any fun q => q.1 == hd.1) = false := hacc hd (by simp)
    rw [pyDictInsert, if_neg (by simp [hne])]
    have hnd' : (tl.map Prod.fst).Nodup := (List.nodup_cons.mp (by simpa using hnd)).2
    have hhd : hd.1 ∉ tl.map Prod.fst := (List.nodup_cons.mp (by simpa using hnd)).1
    rw [ih (acc ++ [(hd.1, hd.2)]) hnd']
    · simp
    · intro p hp
      rw [List.any_append]
      simp only [Bool.or_eq_false_iff]
      refine ⟨hacc p (by simp [hp]), ?_⟩
      simp only [List.any_cons, List.any_nil, Bool.or_false]
      have : hd.1 ≠ p.1 := fun hcontra => hhd (hcontra ▸ List.mem_map_of_mem Prod.fst hp)
      simp [this]

/-- Python dicts built from a list with pairwise-distinct keys keep the
list's order and contents. -/
theorem pyDictOfList_eq_self {α : Type} {l : List (String × α)}
    (h : (l.map Prod.fst).Nodup) : pyDictOfList l = l := by
  simpa using pyDictOfList_go l [] h (by simp)

theorem upsertRow_keys (now : Nat) (db : List Record) (k c : String) (conf : ℚ)
    (rs : Option String) (ct src : String) :
    dbKeys (upsertRow now db k c conf rs ct src) =
      if (db.any fun r => r.incorrect == k) then dbKeys db else dbKeys db ++ [k] := by
  unfold upsertRow dbKeys
  split
  · simp only [List.map_map, if_true]
    refine List.map_congr_left ?_
    intro r _
    dsimp only [Function.comp]
    split <;> rfl
  · simp

theorem upsertRow_keys_nodup {db : List Record} (h : (dbKeys db).Nodup)
    (now : Nat) (k c : String) (conf : ℚ) (rs : Option String) (ct src : String) :
    (dbKeys (upsertRow now db k c conf rs ct src)).Nodup := by
  rw [upsertRow_keys]
  split
  · exact h
  · next hany =>
    have hk : k ∉ dbKeys db := by
      intro hmem
      rcases List.mem_map.mp hmem with ⟨r, hr, hrk⟩
      have : (db.any fun r => r.incorrect == k) = true :=
        List.any_eq_true.mpr ⟨r, hr, by simp [hrk]⟩
      exact hany this
    simp [List.nodup_append, h, hk]

theorem subScanF_cons_some {p : Char} {ps rep : List Char} {prev t ts f pr}
    (h : tryRule p ps prev t ts = some pr) :
    subScanF p ps rep (f + 1) prev (t :: ts) =
      rep ++ subScanF p ps rep f pr.1.getLast? pr.2 := by
  rw [subScanF, h]

theorem subScanF_cons_none {p : Char} {ps rep : List Char} {prev t ts f}
    (h : tryRule p ps prev t ts = Option.none) :
    subScanF p ps rep (f + 1) prev (t :: ts) = t :: subScanF p ps rep f (some t) ts := by
  rw [subScanF, h]

theorem subScanF_no_match {p : Char} {ps rep : List Char} :
    ∀ (text : List Char) (fuel : Nat) (prev : Option Char),
      ciOccurs (p :: ps) text = false → text.length ≤ fuel →
      subScanF p ps rep fuel prev text = text := by
  intro text
  induction text with
  | nil => intro fuel prev _ _; cases fuel <;> rfl
  | cons t ts ih =>
    intro fuel prev hocc hfuel
    match fuel with
    | 0 => simp at hfuel
    | f + 1 =>
      rw [ciOccurs] at hocc
      have hsplit := Bool.or_eq_false_iff.mp hocc
      have htr : tryRule p ps prev t ts = Option.none := by
        unfold tryRule
        split
        · cases hcm : ciMatch (p :: ps) (t :: ts) with
          | none => rfl
          | some pr =>
            exfalso
            have h1 := hsplit.1
            rw [hcm] at h1
            simp at h1
        · rfl
      rw [subScanF_cons_none htr, ih f (some t) hsplit.2 (by simp at hfuel; omega)]

theorem toList_asString (s : String) : s.toList.asString = s := rfl

theorem apply_corrections_nil (t : String) : _apply_corrections t [] = t := rfl

/-- Claim C2 as stated is false on the code: `_apply_corrections` does not
sort the mapping by descending key length but applies the pairs in the
mapping's iteration order, so with the shorter key first the mapping
`[("perp", "Perps"), ("perp dex", "Perps DEX")]` turns
`"a perp dex exists"` into `"a Perps dex exists"`, not
`"a Perps DEX exists"`. -/
theorem applier_order_dependent_counterexample :
    _apply_corrections "a perp dex exists" [("perp", "Perps"), ("perp dex", "Perps DEX")]
        = "a Perps dex exists" ∧
      _apply_corrections "a perp dex exists" [("perp", "Perps"), ("perp dex", "Perps DEX")]
        ≠ "a Perps DEX exists" := by
  constructor
  · decide
  · decide

/-- Claim C2 (amended): the applier applies the pairs in the mapping's own
iteration order and never reorders them; the longer key wins exactly when it
precedes the shorter one — the descending-length order the store supplies —
while in the opposite order the shorter key pre-empts the longer one. -/
theorem applier_longest_first_when_presorted :
    _apply_corrections "a perp dex exists" [("perp dex", "Perps DEX"), ("perp", "Perps")]
        = "a Perps DEX exists" ∧
      _apply_corrections "a perp dex exists" [("perp", "Perps"), ("perp dex", "Perps DEX")]
        = "a Perps dex exists" := by
  constructor
  · decide
  · decide

/-- Claim C9: for the empty (falsy) transcript, `correct_jupiter_terms`
returns the empty string immediately: no store query, no store write, no
analyzer call, and the table state untouched — under any configuration,
including the repository's. -/
theorem empty_transcript_short_circuits (cfg : Config) (p : RunParams) :
    correct_jupiter_terms cfg p "" =
      .ok { final := "", afterA := "", afterC := "", hcc := [], medRows := [], medium := [],
            db := p.db, calls := [] } := rfl

/-- Claim C1 fails on the repository as written: the `Config` class in
`src/config.py` defines no `HIGH_CONFIDENCE_THRESHOLD`, so the orchestrator
raises `AttributeError` at `term_correction.py` line 128 for every non-empty
transcript, before any correction stage runs — it does not degrade
gracefully and the raise is not an input-validation error. -/
theorem orchestrator_raises_attribute_error (p : RunParams) (t : String) (h : t ≠ "") :
    correct_jupiter_terms configRepo p t = .error .attributeError := by
  unfold correct_jupiter_terms
  rw [if_neg h]
  rfl

theorem orchestrator_raises_attribute_error_witness :
    ("gm" : String) ≠ "" ∧
      correct_jupiter_terms configRepo
          { known_terms := ["Jupiter"], known_names := [], db := [], connHigh := true,
            analyzer := .ret Option.none, connWrite := true, connMedium := true, now := 0 }
          "gm"
        = .error .attributeError :=
  ⟨by decide, orchestrator_raises_attribute_error _ "gm" (by decide)⟩

/-- Claim C5: the applier replaces exactly the case-insensitive whole-word
occurrences with the literal stored replacement: a text without even a
case-insensitive substring occurrence of the key is left unchanged;
`perp` does not match inside `perpendicular`; and the correction
`jupiter → Jupiter` maps `JUPITER`, `Jupiter` and `jupiter` — standalone or
as whole words in context — to the literal casing `Jupiter`. -/
theorem applier_word_boundary_and_casing :
    (∀ (text incorrect correct : String) (pc : Char) (pcs : List Char),
        incorrect.toList = pc :: pcs →
        ciOccurs (pc :: pcs) text.toList = false →
        _apply_corrections text [(incorrect, correct)] = text) ∧
      _apply_corrections "perpendicular lines" [("perp", "Perps")] = "perpendicular lines" ∧
      _apply_corrections "JUPITER" [("jupiter", "Jupiter")] = "Jupiter" ∧
      _apply_corrections "Jupiter" [("jupiter", "Jupiter")] = "Jupiter" ∧
      _apply_corrections "jupiter" [("jupiter", "Jupiter")] = "Jupiter" ∧
      _apply_corrections "JUPITER and jupiter, Jupiter!" [("jupiter", "Jupiter")]
        = "Jupiter and Jupiter, Jupiter!" := by
  refine ⟨?_, by decide, by decide, by decide, by decide, by decide⟩
  intro text incorrect correct pc pcs hinc hocc
  unfold _apply_corrections
  simp only [List.foldl_cons, List.foldl_nil]
  split
  · rfl
  · unfold pyReSubWordCI
    rw [hinc]
    show (subScanF pc pcs correct.toList text.toList.length Option.none text.toList).asString
      = text
    rw [subScanF_no_match text.toList text.toList.length Option.none hocc le_rfl]
    exact toList_asString text

theorem applier_word_boundary_and_casing_witness :
    _apply_corrections "solana ecosystem" [("perp", "Perps")] = "solana ecosystem" :=
  applier_word_boundary_and_casing.1 "solana ecosystem" "perp" "Perps" 'p' ['e', 'r', 'p']
    rfl (by decide)

theorem upsertRow_mem_key {now : Nat} {db : List Record} {k c : String} {conf : ℚ}
    {rs : Option String} {ct src : String} {r : Record}
    (hr : r ∈ upsertRow now db k c conf rs ct src) (hk : r.incorrect = k) :
    r.correct = c ∧ r.confidence = conf ∧ r.reasoning = rs ∧ r.ctype = ct ∧
      r.src = src ∧ r.updatedAt = now := by
  unfold upsertRow at hr
  split at hr
  · rcases List.mem_map.mp hr with ⟨r0, hr0, heq⟩
    by_cases h0 : r0.incorrect = k
    · rw [if_pos (by simpa using h0)] at heq
      subst heq
      exact ⟨rfl, rfl, rfl, rfl, rfl, rfl⟩
    · rw [if_neg (by simpa using h0)] at heq
      subst heq
      exact absurd hk h0
  · next hany =>
    rcases List.mem_append.mp hr with h1 | h1
    · exact absurd (List.any_eq_true.mpr ⟨r, h1, by simp [hk]⟩) hany
    · have heq : r = ⟨k, c, conf, rs, ct, src, now, now⟩ := by simpa using h1
      subst heq
      exact ⟨rfl, rfl, rfl, rfl, rfl, rfl⟩

theorem upsertRow_filter_key {db : List Record} (hnd : (dbKeys db).Nodup)
    (now : Nat) (k c : String) (conf : ℚ) (rs : Option String) (ct src : String) :
    ((upsertRow now db k c conf rs ct src).filter fun r => r.incorrect == k).length = 1 := by
  unfold upsertRow
  split
  · next hany =>
    rw [← List.countP_eq_length_filter, List.countP_map]
    have hcg : db.countP ((fun r => r.incorrect == k) ∘ fun r =>
        if r.incorrect == k then
          { r with correct := c, confidence := conf, reasoning := rs,
                   ctype := ct, src := src, updatedAt := now }
        else r) = db.countP fun r => r.incorrect == k := by
      refine List.countP_congr ?_
      intro r _
      dsimp only [Function.comp]
      by_cases h0 : r.incorrect = k
      · rw [if_pos (by simpa using h0)]
      · rw [if_neg (by simpa using h0)]
    rw [hcg]
    have hmem : k ∈ dbKeys db := by
      rcases List.any_eq_true.mp hany with ⟨r, hr, hrk⟩
      exact List.mem_map.mpr ⟨r, hr, by simpa using hrk⟩
    have : (dbKeys db).count k = 1 := List.count_eq_one_of_mem hnd hmem
    calc db.countP (fun r => r.incorrect == k)
        = (dbKeys db).countP (fun s => s == k) := by
          rw [dbKeys, List.countP_map]
          rfl
      _ = (dbKeys db).count k := rfl
      _ = 1 := this
  · next hany =>
    rw [List.filter_append]
    have h1 : db.filter (fun r => r.incorrect == k) = [] := by
      rw [List.filter_eq_nil_iff]
      intro r hr hrk
      exact hany (List.any_eq_true.mpr ⟨r, hr, hrk⟩)
    rw [h1]
    simp

theorem upsertRow_mem_other {db : List Record} {r : Record} (hr : r ∈ db) {k : String}
    (hne : r.incorrect ≠ k) (now : Nat) (c : String) (conf : ℚ) (rs : Option String)
    (ct src : String) : r ∈ upsertRow now db k c conf rs ct src := by
  unfold upsertRow
  split
  · refine List.mem_map.mpr ⟨r, hr, ?_⟩
    rw [if_neg (by simpa using hne)]
  · exact List.mem_append_left _ hr

theorem upsertRow_length_of_mem {db : List Record} {k : String}
    (hany : (db.any fun r => r.incorrect == k) = true) (now : Nat) (c : String) (conf : ℚ)
    (rs : Option String) (ct src : String) :
    (upsertRow now db k c conf rs ct src).length = db.length := by
  unfold upsertRow
  rw [if_pos hany, List.length_map]

theorem foldl_upsert_keys_nodup {src : String} {now : Nat} :
    ∀ (rows : List PendingRow) (db : List Record), (dbKeys db).Nodup →
      (dbKeys (rows.foldl (fun d row => upsertRow now d row.incorrect row.correct
        row.confidence row.reasoning row.ctype src) db)).Nodup := by
  intro rows
  induction rows with
  | nil => intro db h; simpa using h
  | cons hd tl ih =>
    intro db h
    simp only [List.foldl_cons]
    exact ih _ (upsertRow_keys_nodup h _ _ _ _ _ _ _)

theorem add_multiple_keys_nodup {db : List Record} (h : (dbKeys db).Nodup)
    (corrections : List (String × CorrValue)) (source : String) (now : Nat) :
    (dbKeys (add_multiple_term_corrections db corrections source now)).Nodup := by
  unfold add_multiple_term_corrections
  exact foldl_upsert_keys_nodup _ _ h

/-- Claim C3: across any sequence of upserts `incorrect_term` stays unique;
re-inserting an existing key leaves exactly one row for it, carrying the new
`correct_term`, `confidence`, `reasoning`, `correction_type` and `source`
values and the refreshed `updated_at`, adds no row, and leaves every other
row untouched. -/
theorem store_upsert_overwrites_uniquely (db : List Record) (hnd : (dbKeys db).Nodup)
    (k c : String) (hk : k ≠ "") (hc : c ≠ "") (conf : ℚ) (rs : Option String)
    (ct src : String) (now : Nat) :
    (dbKeys (add_term_correction db k c conf rs ct src now)).Nodup ∧
      ((add_term_correction db k c conf rs ct src now).filter
        fun r => r.incorrect == k).length = 1 ∧
      (∀ r ∈ add_term_correction db k c conf rs ct src now, r.incorrect = k →
        r.correct = c ∧ r.confidence = conf ∧ r.reasoning = rs ∧ r.ctype = ct ∧
          r.src = src ∧ r.updatedAt = now) ∧
      (k ∈ dbKeys db → (add_term_correction db k c conf rs ct src now).length = db.length) ∧
      (∀ r ∈ db, r.incorrect ≠ k → r ∈ add_term_correction db k c conf rs ct src now) ∧
      (∀ (corrections : List (String × CorrValue)) (source : String),
        (dbKeys (add_multiple_term_corrections db corrections source now)).Nodup) := by
  have hguard : add_term_correction db k c conf rs ct src now =
      upsertRow now db k c conf rs ct src := by
    unfold add_term_correction
    rw [if_neg (by simp [hk, hc])]
  refine ⟨?_, ?_, ?_, ?_, ?_, ?_⟩
  · rw [hguard]; exact upsertRow_keys_nodup hnd _ _ _ _ _ _ _
  · rw [hguard]; exact upsertRow_filter_key hnd _ _ _ _ _ _ _
  · rw [hguard]; intro r hr hkr; exact upsertRow_mem_key hr hkr
  · rw [hguard]
    intro hmem
    have hany : (db.any fun r => r.incorrect == k) = true := by
      rcases List.mem_map.mp hmem with ⟨r, hr, hrk⟩
      exact List.any_eq_true.mpr ⟨r, hr, by simp [hrk]⟩
    exact upsertRow_length_of_mem hany _ _ _ _ _ _
  · rw [hguard]; intro r hr hne; exact upsertRow_mem_other hr hne _ _ _ _ _ _
  · intro corrections source
    exact add_multiple_keys_nodup hnd _ _ _

theorem store_upsert_overwrites_uniquely_witness :
    ((add_term_correction
        [⟨"jupe", "J", 1, Option.none, "term", "manual", 0, 0⟩,
         ⟨"perp", "Perps", 1, Option.none, "term", "manual", 0, 0⟩]
        "jupe" "JUP" (9 / 10) Option.none "term" "llm_identified" 5).filter
      fun r => r.incorrect == "jupe").length = 1 :=
  (store_upsert_overwrites_uniquely _ (by decide) "jupe" "JUP" (by decide) (by decide)
    (9 / 10) Option.none "term" "llm_identified" 5).2.1

theorem rowPred_iff {minC : ℚ} {cts : Option (List String)} {r : Record} :
    rowPred minC cts r = true ↔ (minC ≤ r.confidence ∧ typeCond cts r) := by
  cases cts with
  | none => simp [rowPred, typeCond]
  | some ts =>
    by_cases hts : ts = []
    · subst hts; simp [rowPred, typeCond]
    · simp [rowPred, typeCond, hts, List.elem_iff, List.isEmpty_iff]

theorem query_keys_nodup {α : Type} (db : List Record) (hnd : (dbKeys db).Nodup)
    (pred : Record → Bool) (f : Record → α) :
    (((List.insertionSort lenDescRel (db.filter pred)).map fun r => (r.incorrect, f r)).map
      Prod.fst).Nodup := by
  have hsub : List.Sublist ((db.filter pred).map Record.incorrect) (db.map Record.incorrect) :=
    List.Sublist.map Record.incorrect (List.filter_sublist db)
  have h1 : ((db.filter pred).map Record.incorrect).Nodup := List.Nodup.sublist hsub hnd
  have hperm : List.Perm (List.insertionSort lenDescRel (db.filter pred)) (db.filter pred) :=
    List.perm_insertionSort lenDescRel _
  have h2 : ((List.insertionSort lenDescRel (db.filter pred)).map Record.incorrect).Nodup :=
    ((hperm.map Record.incorrect).nodup_iff).mpr h1
  simpa [List.map_map, Function.comp] using h2

theorem query_mem_iff {α : Type} (db : List Record) (minC : ℚ) (cts : Option (List String))
    (f : Record → α) (k : String) (v : α) :
    ((k, v) ∈ (List.insertionSort lenDescRel (db.filter (rowPred minC cts))).map
      fun r => (r.incorrect, f r)) ↔
      ∃ r ∈ db, r.incorrect = k ∧ f r = v ∧ minC ≤ r.confidence ∧ typeCond cts r := by
  rw [List.mem_map]
  constructor
  · rintro ⟨r, hr, heq⟩
    have hr' : r ∈ db.filter (rowPred minC cts) :=
      ((List.perm_insertionSort lenDescRel _).mem_iff).mp hr
    rcases List.mem_filter.mp hr' with ⟨hrdb, hpred⟩
    rcases rowPred_iff.mp hpred with ⟨hconf, htype⟩
    injection heq with hk hv
    exact ⟨r, hrdb, hk, hv, hconf, htype⟩
  · rintro ⟨r, hrdb, hk, hv, hconf, htype⟩
    refine ⟨r, ?_, by rw [hk, hv]⟩
    exact ((List.perm_insertionSort lenDescRel _).mem_iff).mpr
      (List.mem_filter.mpr ⟨hrdb, rowPred_iff.mpr ⟨hconf, htype⟩⟩)

theorem query_sorted {α : Type} (db : List Record) (minC : ℚ) (cts : Option (List String))
    (f : Record → α) :
    List.Sorted (fun a b : String × α => b.1.length ≤ a.1.length)
      ((List.insertionSort lenDescRel (db.filter (rowPred minC cts))).map
        fun r => (r.incorrect, f r)) := by
  have hs : List.Sorted lenDescRel
      (List.insertionSort lenDescRel (db.filter (rowPred minC cts))) :=
    List.sorted_insertionSort lenDescRel _
  exact List.Pairwise.map _ (fun a b hab => hab) hs

theorem get_all_eq (db : List Record) (hnd : (dbKeys db).Nodup) (minC : ℚ)
    (cts : Option (List String)) :
    get_all_term_corrections (some db) minC cts =
      (List.insertionSort lenDescRel (db.filter (rowPred minC cts))).map
        fun r => (r.incorrect, r.correct) := by
  unfold get_all_term_corrections
  exact pyDictOfList_eq_self (query_keys_nodup db hnd _ _)

theorem get_meta_eq (db : List Record) (hnd : (dbKeys db).Nodup) (minC : ℚ)
    (cts : Option (List String)) :
    get_term_corrections_with_metadata (some db) minC cts =
      (List.insertionSort lenDescRel (db.filter (rowPred minC cts))).map
        fun r => (r.incorrect, r) := by
  unfold get_term_corrections_with_metadata
  exact pyDictOfList_eq_self (query_keys_nodup db hnd _ _)

/-- Claim C6: for a reachable store with unique keys, the query returns
exactly the records with `confidence >= min_confidence` that pass the
optional type filter, as an `incorrect → correct` mapping whose entries are
ordered by descending length of `incorrect_term`; the metadata variant
returns the same keys with the full rows, in the same order. -/
theorem store_query_filter_and_order (db : List Record) (hnd : (dbKeys db).Nodup)
    (minC : ℚ) (cts : Option (List String)) :
    (∀ k v, (k, v) ∈ get_all_term_corrections (some db) minC cts ↔
      ∃ r ∈ db, r.incorrect = k ∧ r.correct = v ∧ minC ≤ r.confidence ∧ typeCond cts r) ∧
      List.Sorted (fun a b : String × String => b.1.length ≤ a.1.length)
        (get_all_term_corrections (some db) minC cts) ∧
      (∀ k rec, (k, rec) ∈ get_term_corrections_with_metadata (some db) minC cts ↔
        (rec ∈ db ∧ rec.incorrect = k ∧ minC ≤ rec.confidence ∧ typeCond cts rec)) ∧
      List.Sorted (fun a b : String × Record => b.1.length ≤ a.1.length)
        (get_term_corrections_with_metadata (some db) minC cts) := by
  refine ⟨?_, ?_, ?_, ?_⟩
  · intro k v
    rw [get_all_eq db hnd minC cts]
    exact query_mem_iff db minC cts Record.correct k v
  · rw [get_all_eq db hnd minC cts]
    exact query_sorted db minC cts Record.correct
  · intro k rec
    rw [get_meta_eq db hnd minC cts]
    have h := query_mem_iff db minC cts (fun r => r) k rec
    constructor
    · intro hmem
      rcases h.mp hmem with ⟨r, hrdb, hk, hv, hconf, htype⟩
      cases hv
      exact ⟨hrdb, hk, hconf, htype⟩
    · rintro ⟨hrdb, hk, hconf, htype⟩
      exact h.mpr ⟨rec, hrdb, hk, rfl, hconf, htype⟩
  · rw [get_meta_eq db hnd minC cts]
    exact query_sorted db minC cts (fun r => r)

theorem corrRow_key : ∀ {kv : String × CorrValue} {row : PendingRow},
    corrRow kv = some row → row.incorrect = kv.1 := by
  intro ⟨k, v⟩ row h
  cases v with
  | simple s =>
    simp only [corrRow] at h
    split at h
    · simp at h
    · split at h
      · simp at h
      · cases h; rfl
  | detailed tm conf rs ct =>
    simp only [corrRow] at h
    split at h
    · simp at h
    · split at h
      · simp at h
      · cases h; rfl
  | invalid =>
    simp only [corrRow] at h
    split at h <;> simp at h

theorem filterMap_corrRow_keys_sublist (corrs : List (String × CorrValue)) :
    List.Sublist ((corrs.filterMap corrRow).map PendingRow.incorrect)
      (corrs.map Prod.fst) := by
  induction corrs with
  | nil => simp
  | cons kv tl ih =>
    cases h : corrRow kv with
    | none =>
      rw [List.filterMap_cons, h, List.map_cons]
      exact List.Sublist.cons _ ih
    | some row =>
      rw [List.filterMap_cons, h, List.map_cons, List.map_cons, corrRow_key h]
      exact List.Sublist.cons₂ _ ih

theorem upsertRow_key_mem (now : Nat) (db : List Record) (k c : String) (conf : ℚ)
    (rs : Option String) (ct src : String) :
    k ∈ dbKeys (upsertRow now db k c conf rs ct src) := by
  rw [upsertRow_keys]
  split
  · next hany =>
    rcases List.any_eq_true.mp hany with ⟨r, hr, hrk⟩
    exact List.mem_map.mpr ⟨r, hr, by simpa using hrk⟩
  · exact List.mem_append_right _ (by simp)

theorem foldl_upsert_preserves {src : String} {now : Nat} :
    ∀ (rows : List PendingRow) (db : List Record) (r : Record), r ∈ db →
      (∀ row ∈ rows, r.incorrect ≠ row.incorrect) →
      r ∈ rows.foldl (fun d row => upsertRow now d row.incorrect row.correct row.confidence
        row.reasoning row.ctype src) db := by
  intro rows
  induction rows with
  | nil => intro db r hr _; simpa using hr
  | cons hd tl ih =>
    intro db r hr hne
    simp only [List.foldl_cons]
    exact ih _ r (upsertRow_mem_other hr (hne hd (by simp)) _ _ _ _ _ _)
      (fun row hrow => hne row (by simp [hrow]))

theorem foldl_upsert_find {src : String} {now : Nat} :
    ∀ (rows : List PendingRow) (db : List Record),
      ((rows.map PendingRow.incorrect).Nodup) → ∀ pr ∈ rows,
      ∃ r ∈ rows.foldl (fun d row => upsertRow now d row.incorrect row.correct row.confidence
        row.reasoning row.ctype src) db, r.incorrect = pr.incorrect ∧
        r.correct = pr.correct ∧ r.confidence = pr.confidence := by
  intro rows
  induction rows with
  | nil => intro db _ pr hpr; simp at hpr
  | cons hd tl ih =>
    intro db hnd pr hpr
    simp only [List.foldl_cons]
    rw [List.map_cons] at hnd
    obtain ⟨hnotin, hndtl⟩ := List.nodup_cons.mp hnd
    rcases List.mem_cons.mp hpr with heq | htl
    · subst heq
      have hmem := upsertRow_key_mem now db pr.incorrect pr.correct pr.confidence
        pr.reasoning pr.ctype src
      rcases List.mem_map.mp hmem with ⟨r, hr, hrk⟩
      have hfields := upsertRow_mem_key hr hrk
      refine ⟨r, ?_, hrk, hfields.1, hfields.2.1⟩
      refine foldl_upsert_preserves tl _ r hr ?_
      intro row hrow
      rw [hrk]
      intro hcontra
      exact hnotin (hcontra ▸ List.mem_map_of_mem PendingRow.incorrect hrow)
    · exact ih _ hndtl pr htl

theorem stageBC_ret_some {p : RunParams} {F : List (String × Finding)}
    (hknown : (p.known_terms.isEmpty && p.known_names.isEmpty) = false)
    (hana : p.analyzer = .ret (some F)) (hwrite : p.connWrite = true) (highT : ℚ)
    (afterA : String) :
    stageBC highT p afterA =
      if F.isEmpty then (afterA, p.db, [.analyzerCall])
      else
        (if ((F.filter fun kf => decide (highT ≤ kf.2.confidence.getD 0)).map
            fun kf => (kf.1, kf.2.term)).isEmpty then afterA
          else _apply_corrections afterA ((F.filter fun kf =>
            decide (highT ≤ kf.2.confidence.getD 0)).map fun kf => (kf.1, kf.2.term)),
         add_multiple_term_corrections p.db
           (F.map fun kf => (kf.1, CorrValue.detailed kf.2.term kf.2.confidence kf.2.reasoning
             kf.2.ctype)) "llm_identified" p.now,
         [.analyzerCall, .storeWrite]) := by
  unfold stageBC
  rw [if_neg (by simp [hknown]), hana]
  cases F with
  | nil => rfl
  | cons f fs => simp [hwrite]

theorem run_afterA (highT mediumT : ℚ) (p : RunParams) (t : String) :
    (correct_jupiter_termsRun highT mediumT p t).afterA = (stageA highT p t).2 := rfl

theorem run_afterC (highT mediumT : ℚ) (p : RunParams) (t : String) :
    (correct_jupiter_termsRun highT mediumT p t).afterC
      = (stageBC highT p (stageA highT p t).2).1 := rfl

theorem run_db (highT mediumT : ℚ) (p : RunParams) (t : String) :
    (correct_jupiter_termsRun highT mediumT p t).db
      = (stageBC highT p (stageA highT p t).2).2.1 := rfl

/-- Claim C7: in stage C of a run in which the analyzer returned findings
`F` (reference lists non-empty, write connection up), the resulting table is
the full batch upsert of `F` — every finding with a non-empty key and term
is persisted, regardless of how low its confidence is — and the stage-C text
is exactly the stage-B input with the mapping of the findings of confidence
`>= highT` applied. -/
theorem stage_c_persists_all_and_applies_high (highT mediumT : ℚ) (p : RunParams)
    (t : String) (F : List (String × Finding))
    (hknown : (p.known_terms.isEmpty && p.known_names.isEmpty) = false)
    (hana : p.analyzer = .ret (some F)) (hwrite : p.connWrite = true)
    (hkeys : (F.map Prod.fst).Nodup) :
    ((correct_jupiter_termsRun highT mediumT p t).db =
      add_multiple_term_corrections p.db
        (F.map fun kf => (kf.1, CorrValue.detailed kf.2.term kf.2.confidence kf.2.reasoning
          kf.2.ctype)) "llm_identified" p.now) ∧
      (∀ kf ∈ F, kf.1 ≠ "" → kf.2.term ≠ "" →
        ∃ r ∈ (correct_jupiter_termsRun highT mediumT p t).db,
          r.incorrect = kf.1 ∧ r.correct = kf.2.term ∧
            r.confidence = kf.2.confidence.getD 1) ∧
      ((correct_jupiter_termsRun highT mediumT p t).afterC =
        _apply_corrections (correct_jupiter_termsRun highT mediumT p t).afterA
          ((F.filter fun kf => decide (highT ≤ kf.2.confidence.getD 0)).map
            fun kf => (kf.1, kf.2.term))) := by
  have hbc := stageBC_ret_some hknown hana hwrite highT (stageA highT p t).2
  have hdb : (correct_jupiter_termsRun highT mediumT p t).db =
      add_multiple_term_corrections p.db
        (F.map fun kf => (kf.1, CorrValue.detailed kf.2.term kf.2.confidence kf.2.reasoning
          kf.2.ctype)) "llm_identified" p.now := by
    rw [run_db, hbc]
    cases F with
    | nil => rfl
    | cons f fs => rw [if_neg (by simp)]
  refine ⟨hdb, ?_, ?_⟩
  · intro kf hkf hk1 hk2
    rw [hdb]
    unfold add_multiple_term_corrections
    have hrowmem : (⟨kf.1, kf.2.term, kf.2.confidence.getD 1, kf.2.reasoning,
        kf.2.ctype.getD "term"⟩ : PendingRow) ∈
        ((F.map fun kf => (kf.1, CorrValue.detailed kf.2.term kf.2.confidence kf.2.reasoning
          kf.2.ctype)).filterMap corrRow) := by
      refine List.mem_filterMap.mpr
        ⟨(kf.1, CorrValue.detailed kf.2.term kf.2.confidence kf.2.reasoning kf.2.ctype),
          ?_, ?_⟩
      · exact List.mem_map.mpr ⟨kf, hkf, rfl⟩
      · simp [corrRow, hk1, hk2]
    have hndrows : (((F.map fun kf => (kf.1, CorrValue.detailed kf.2.term kf.2.confidence
        kf.2.reasoning kf.2.ctype)).filterMap corrRow).map PendingRow.incorrect).Nodup := by
      refine List.Nodup.sublist (filterMap_corrRow_keys_sublist _) ?_
      have hmm : (F.map fun kf => (kf.1, CorrValue.detailed kf.2.term kf.2.confidence
          kf.2.reasoning kf.2.ctype)).map Prod.fst = F.map Prod.fst := by
        rw [List.map_map]
        rfl
      rw [hmm]
      exact hkeys
    rcases foldl_upsert_find _ p.db hndrows _ hrowmem with ⟨r, hrmem, h1, h2, h3⟩
    exact ⟨r, hrmem, h1, h2, h3⟩
  · rw [run_afterC, run_afterA, hbc]
    cases F with
    | nil => rfl
    | cons f fs =>
      rw [if_neg (by simp)]
      dsimp only
      split
      · next hempty =>
        rw [List.isEmpty_iff.mp hempty, apply_corrections_nil]
      · rfl

theorem stage_c_persists_all_and_applies_high_witness :
    (correct_jupiter_termsRun 75 60
        { known_terms := ["Jupiter"], known_names := [], db := [], connHigh := true,
          analyzer := .ret (some
            [("jupyter", ⟨"Jupiter", some 95, Option.none, some "term"⟩),
             ("lfg", ⟨"LFG", some 40, Option.none, Option.none⟩)]),
          connWrite := true, connMedium := true, now := 3 }
        "jupyter is cool").afterC =
      _apply_corrections
        (correct_jupiter_termsRun 75 60
          { known_terms := ["Jupiter"], known_names := [], db := [], connHigh := true,
            analyzer := .ret (some
              [("jupyter", ⟨"Jupiter", some 95, Option.none, some "term"⟩),
               ("lfg", ⟨"LFG", some 40, Option.none, Option.none⟩)]),
            connWrite := true, connMedium := true, now := 3 }
          "jupyter is cool").afterA
        (([("jupyter", (⟨"Jupiter", some 95, Option.none, some "term"⟩ : Finding)),
           ("lfg", ⟨"LFG", some 40, Option.none, Option.none⟩)].filter
            fun kf => decide ((75 : ℚ) ≤ kf.2.confidence.getD 0)).map
          fun kf => (kf.1, kf.2.term)) :=
  (stage_c_persists_all_and_applies_high 75 60 _ "jupyter is cool" _ (by decide) rfl rfl
    (by decide)).2.2

theorem medium_filter_spec (hcc : List (String × String)) (rows : List (String × Record))
    (highT mediumT : ℚ) (k : String)
    (hk : k ∈ ((rows.filter fun kd =>
        decide (mediumT ≤ kd.2.confidence) && decide (kd.2.confidence < highT) &&
          !(hcc.any fun q => q.1 == kd.1)).map fun kd => (kd.1, kd.2.correct)).map Prod.fst) :
    k ∉ hcc.map Prod.fst ∧
      ∃ rec, (k, rec) ∈ rows ∧ mediumT ≤ rec.confidence ∧ rec.confidence < highT := by
  rcases List.mem_map.mp hk with ⟨kv, hkv, hfst⟩
  rcases List.mem_map.mp hkv with ⟨kd, hkd, heq⟩
  rcases List.mem_filter.mp hkd with ⟨hrows, hpred⟩
  rw [Bool.and_eq_true, Bool.and_eq_true] at hpred
  obtain ⟨⟨h1, h2⟩, h4⟩ := hpred
  subst heq
  simp only at hfst
  constructor
  · intro hmem
    rcases List.mem_map.mp hmem with ⟨q, hq, hqk⟩
    have hany : (hcc.any fun q => q.1 == kd.1) = true :=
      List.any_eq_true.mpr ⟨q, hq, by simp [hqk, hfst]⟩
    rw [hany] at h4
    simp at h4
  · refine ⟨kd.2, ?_, by simpa using h1, by simpa using h2⟩
    rw [← hfst]
    exact hrows

/-- Claim C4: in any orchestrator run, the stage-D mapping contains only
keys absent from the stage-A high-confidence mapping, each backed by a
queried row whose confidence lies in `[mediumT, highT)`; hence a key
resolved in stage A is never substituted again in stage D, even when the
medium-confidence query — which runs against the post-write table — also
returns it. -/
theorem stage_d_excludes_stage_a_keys (highT mediumT : ℚ) (p : RunParams) (t : String)
    (k : String)
    (hk : k ∈ (correct_jupiter_termsRun highT mediumT p t).medium.map Prod.fst) :
    k ∉ (correct_jupiter_termsRun highT mediumT p t).hcc.map Prod.fst ∧
      ∃ rec, (k, rec) ∈ (correct_jupiter_termsRun highT mediumT p t).medRows ∧
        mediumT ≤ rec.confidence ∧ rec.confidence < highT := by
  have hmed : (correct_jupiter_termsRun highT mediumT p t).medium =
      ((correct_jupiter_termsRun highT mediumT p t).medRows.filter fun kd =>
        decide (mediumT ≤ kd.2.confidence) && decide (kd.2.confidence < highT) &&
          !((correct_jupiter_termsRun highT mediumT p t).hcc.any fun q => q.1 == kd.1)).map
        fun kd => (kd.1, kd.2.correct) := rfl
  exact medium_filter_spec _ _ highT mediumT k (by rw [← hmed]; exact hk)

theorem stage_d_excludes_stage_a_keys_witness :
    "perp" ∉ (correct_jupiter_termsRun 75 60
        { known_terms := ["Jupiter"], known_names := [],
          db := [⟨"jupe", "JUP", 90, Option.none, "term", "manual", 0, 0⟩,
                 ⟨"perp", "Perps", 65, Option.none, "term", "manual", 0, 0⟩],
          connHigh := true,
          analyzer := .ret (some [("jupe", ⟨"JUP", some 65, Option.none, Option.none⟩)]),
          connWrite := true, connMedium := true, now := 7 }
        "jupe and perp dex").hcc.map Prod.fst :=
  (stage_d_excludes_stage_a_keys 75 60 _ "jupe and perp dex" "perp" (by decide)).1

theorem store_query_filter_and_order_witness :
    List.Sorted (fun a b : String × String => b.1.length ≤ a.1.length)
      (get_all_term_corrections
        (some [⟨"jupe", "JUP", 9 / 10, Option.none, "term", "manual", 0, 0⟩,
               ⟨"perp dex", "Perps DEX", 13 / 20, Option.none, "term", "manual", 0, 0⟩])
        (3 / 5) Option.none) :=
  (store_query_filter_and_order _ (by decide) (3 / 5) Option.none).2.1

theorem find?_append_some {α : Type} {p : α → Bool} {l₁ l₂ : List α} {a : α}
    (h : l₁.find? p = some a) : (l₁ ++ l₂).find? p = some a := by
  induction l₁ with
  | nil => simp at h
  | cons x xs ih =>
    rw [List.cons_append]
    by_cases hx : p x
    · rw [List.find?_cons_of_pos _ hx] at h ⊢
      exact h
    · rw [List.find?_cons_of_neg _ hx] at h ⊢
      exact ih h

theorem find?_append_none {α : Type} {p : α → Bool} {l₁ l₂ : List α}
    (h : l₁.find? p = Option.none) : (l₁ ++ l₂).find? p = l₂.find? p := by
  induction l₁ with
  | nil => simp
  | cons x xs ih =>
    rw [List.cons_append]
    by_cases hx : p x
    · rw [List.find?_cons_of_pos _ hx] at h
      simp at h
    · rw [List.find?_cons_of_neg _ hx] at h ⊢
      exact ih h

theorem bool_guard_any (kp : List PyVal) (f : PyVal → Bool) :
    (!kp.isEmpty && kp.any f) = kp.any f := by
  cases kp <;> simp

theorem confFill_find_of_some {p : String × PyVal → Bool} {kvs : List (String × PyVal)}
    {a : String × PyVal} (h : kvs.find? p = some a) : (confFill kvs).find? p = some a := by
  unfold confFill
  split
  · exact h
  · exact find?_append_some h

theorem confFill_find_conf_none {kvs : List (String × PyVal)}
    (h : (kvs.find? fun p => p.1 == "confidence") = Option.none) :
    ((confFill kvs).find? fun p => p.1 == "confidence")
      = some ("confidence", PyVal.num (7 / 10)) := by
  unfold confFill
  rw [if_neg (by simp [h]), find?_append_none h]
  rfl

theorem confFill_find_ct_none {kvs : List (String × PyVal)}
    (h : (kvs.find? fun p => p.1 == "correction_type") = Option.none) :
    ((confFill kvs).find? fun p => p.1 == "correction_type") = Option.none := by
  unfold confFill
  split
  · exact h
  · rw [find?_append_none h]
    rfl

theorem ctypeFill_find_of_some {kp : List PyVal} {tv : PyVal}
    {p : String × PyVal → Bool} {kvs1 : List (String × PyVal)} {a : String × PyVal}
    (h : kvs1.find? p = some a) : ((ctypeFill kp tv kvs1).find? p) = some a := by
  unfold ctypeFill
  split
  · exact h
  · split
    · exact find?_append_some h
    · exact find?_append_some h

theorem ctypeFill_find_ct {kp : List PyVal} {tv : PyVal} {kvs1 : List (String × PyVal)}
    (h : (kvs1.find? fun p => p.1 == "correction_type") = Option.none) :
    ((ctypeFill kp tv kvs1).find? fun p => p.1 == "correction_type")
      = some ("correction_type",
        PyVal.str (if kp.any fun x => pyBeq x tv then "person" else "term")) := by
  unfold ctypeFill
  rw [if_neg (by simp [h]), bool_guard_any]
  cases hany : kp.any fun x => pyBeq x tv with
  | true =>
    rw [if_pos rfl, find?_append_none h]
    rfl
  | false =>
    rw [if_neg (by simp), find?_append_none h]
    rfl

theorem validateEntry_term_isSome {kp : List PyVal} {v : PyVal} {d : List (String × PyVal)}
    (h : validateEntry kp v = some d) : (d.find? fun q => q.1 == "term").isSome := by
  cases v with
  | str s => simp [validateEntry] at h
  | num q => simp [validateEntry] at h
  | bool b => simp [validateEntry] at h
  | none => simp [validateEntry] at h
  | list xs => simp [validateEntry] at h
  | dict kvs =>
    simp only [validateEntry] at h
    cases hft : kvs.find? fun p => p.1 == "term" with
    | none => rw [hft] at h; simp at h
    | some pt =>
      rw [hft] at h
      simp only [Option.some.injEq] at h
      subst h
      rw [ctypeFill_find_of_some (confFill_find_of_some hft)]
      rfl

theorem validateEntry_spec (kp : List PyVal) (kvs : List (String × PyVal))
    (tv : String × PyVal) (h : (kvs.find? fun p => p.1 == "term") = some tv) :
    ∃ d, validateEntry kp (PyVal.dict kvs) = some d ∧
      (d.find? fun p => p.1 == "term") = some tv ∧
      ((kvs.find? fun p => p.1 == "confidence") = Option.none →
        (d.find? fun p => p.1 == "confidence") = some ("confidence", PyVal.num (7 / 10))) ∧
      ((kvs.find? fun p => p.1 == "correction_type") = Option.none →
        (d.find? fun p => p.1 == "correction_type") = some ("correction_type",
          PyVal.str (if kp.any fun x => pyBeq x tv.2 then "person" else "term"))) := by
  refine ⟨ctypeFill kp tv.2 (confFill kvs), ?_, ?_, ?_, ?_⟩
  · simp only [validateEntry]
    rw [h]
  · exact ctypeFill_find_of_some (confFill_find_of_some h)
  · intro hconf
    exact ctypeFill_find_of_some (confFill_find_conf_none hconf)
  · intro hct
    exact ctypeFill_find_ct (confFill_find_ct_none hct)

/-- Claim C8: the validated analyzer result contains no entry lacking a
`term` field (such entries are discarded); an entry missing `confidence`
receives the default 0.7; and an entry missing `correction_type` is tagged
`person` exactly when its corrected value occurs (under Python `==`) in the
known-people list, else `term`. -/
theorem analyzer_validation_defaults (kp : List PyVal) (items : List (String × PyVal)) :
    (∀ kd ∈ validate_corrections kp items,
      ((kd.2.find? fun q => q.1 == "term").isSome)) ∧
      (∀ k kvs tv, (k, PyVal.dict kvs) ∈ items →
        (kvs.find? fun q => q.1 == "term") = some tv →
        ∃ d, (k, d) ∈ validate_corrections kp items ∧
          (d.find? fun q => q.1 == "term") = some tv ∧
          ((kvs.find? fun q => q.1 == "confidence") = Option.none →
            (d.find? fun q => q.1 == "confidence")
              = some ("confidence", PyVal.num (7 / 10))) ∧
          ((kvs.find? fun q => q.1 == "correction_type") = Option.none →
            (d.find? fun q => q.1 == "correction_type") = some ("correction_type",
              PyVal.str (if kp.any fun x => pyBeq x tv.2 then "person" else "term")))) := by
  constructor
  · intro kd hkd
    rcases List.mem_filterMap.mp hkd with ⟨⟨k0, v0⟩, _, hf⟩
    cases hv : validateEntry kp v0 with
    | none => rw [hv] at hf; simp at hf
    | some d0 =>
      rw [hv] at hf
      simp only [Option.map_some', Option.some.injEq] at hf
      subst hf
      exact validateEntry_term_isSome hv
  · intro k kvs tv hmem hft
    rcases validateEntry_spec kp kvs tv hft with ⟨d, hd, h1, h2, h3⟩
    refine ⟨d, ?_, h1, h2, h3⟩
    refine List.mem_filterMap.mpr ⟨(k, PyVal.dict kvs), hmem, ?_⟩
    rw [hd]
    rfl

theorem analyzer_validation_defaults_witness :
    ∃ d, ("jupyter", d) ∈ validate_corrections [PyVal.str "Siong"]
        [("jupyter", PyVal.dict [("term", PyVal.str "Jupiter")])] ∧
      (d.find? fun q => q.1 == "term") = some ("term", PyVal.str "Jupiter") ∧
      (([(("term" : String), PyVal.str "Jupiter")].find? fun q => q.1 == "confidence")
          = Option.none →
        (d.find? fun q => q.1 == "confidence") = some ("confidence", PyVal.num (7 / 10))) ∧
      (([(("term" : String), PyVal.str "Jupiter")].find? fun q => q.1 == "correction_type")
          = Option.none →
        (d.find? fun q => q.1 == "correction_type") = some ("correction_type",
          PyVal.str (if [PyVal.str "Siong"].any fun x =>
              pyBeq x (("term", PyVal.str "Jupiter") : String × PyVal).2
            then "person" else "term"))) :=
  (analyzer_validation_defaults [PyVal.str "Siong"]
    [("jupyter", PyVal.dict [("term", PyVal.str "Jupiter")])]).2
    "jupyter" [("term", PyVal.str "Jupiter")] ("term", PyVal.str "Jupiter")
    (by simp) rfl

/-- Claim C10 as stated is false: `extract_terms_list` does not return an
empty list for every non-mapping argument — a flat list that happens to
contain the literal string `"terms"` passes the Python `in` membership test
and the subsequent list subscript `term_data["terms"]` raises `TypeError`
instead of yielding an empty list. -/
theorem extract_list_arg_raises :
    extract_terms_list (PyVal.list [PyVal.str "terms"]) = .error .typeError ∧
      extract_terms_list (PyVal.list [PyVal.str "terms"]) ≠ .ok [] := by
  refine ⟨rfl, ?_⟩
  intro h
  rw [show extract_terms_list (PyVal.list [PyVal.str "terms"])
      = Except.error PyErr.typeError from rfl] at h
  exact Except.noConfusion h

/-- Claim C10 (amended): the analyzer returns `None` without contacting the
generative-text service whenever both catalog extractions yield empty lists;
and each extraction yields the empty list for every argument whose Python
membership test for its outer key fails — mappings without the key, and the
flat string lists `correct_jupiter_terms` passes, provided they do not
contain the literal outer key string (in which case the subscript raises
`TypeError` instead). -/
theorem analyzer_skips_when_catalogs_empty :
    (∀ (t : String) (td pd : PyVal) (svc : ServiceOutcome),
        extract_terms_list td = .ok [] → extract_people_list pd = .ok [] →
        analyze_transcript_for_term_errors t td pd svc = .ok (Option.none, false)) ∧
      (∀ xs : List String, ¬ "terms" ∈ xs → extract_terms_list (flatArg xs) = .ok []) ∧
      (∀ xs : List String, ¬ "people" ∈ xs → extract_people_list (flatArg xs) = .ok []) ∧
      (∀ kvs : List (String × PyVal), (kvs.any fun p => p.1 == "terms") = false →
        extract_terms_list (PyVal.dict kvs) = .ok []) := by
  have hlist : ∀ (key : String) (xs : List String), ¬ key ∈ xs →
      ((xs.map PyVal.str).any fun x => pyBeq x (PyVal.str key)) = false := by
    intro key xs hx
    induction xs with
    | nil => rfl
    | cons y ys ih =>
      simp only [List.map_cons, List.any_cons, Bool.or_eq_false_iff]
      constructor
      · rw [show pyBeq (PyVal.str y) (PyVal.str key) = (y == key) from rfl]
        simp only [beq_eq_false_iff_ne, ne_eq]
        intro hc
        refine hx ?_
        rw [← hc]
        exact List.mem_cons_self y ys
      · exact ih fun hmem => hx (List.mem_cons_of_mem _ hmem)
  refine ⟨?_, ?_, ?_, ?_⟩
  · intro t td pd svc h1 h2
    unfold analyze_transcript_for_term_errors
    by_cases ht : t = ""
    · subst ht; rfl
    · simp [ht, h1, h2, Bind.bind, Except.bind, Pure.pure, Except.pure]
  · intro xs hx
    unfold extract_terms_list extractFlatList
    simp [pyContainsKey, flatArg, hlist "terms" xs hx, Bind.bind, Except.bind,
      Pure.pure, Except.pure]
  · intro xs hx
    unfold extract_people_list extractFlatList
    simp [pyContainsKey, flatArg, hlist "people" xs hx, Bind.bind, Except.bind,
      Pure.pure, Except.pure]
  · intro kvs hk
    unfold extract_terms_list extractFlatList
    simp [pyContainsKey, hk, Bind.bind, Except.bind, Pure.pure, Except.pure]

theorem analyzer_skips_when_catalogs_empty_witness :
    extract_terms_list (flatArg ["Jupiter", "JUP", "Perps"]) = .ok [] :=
  analyzer_skips_when_catalogs_empty.2.1 ["Jupiter", "JUP", "Perps"] (by decide)

end HorizonSummaries
